import Mathlib

/-
  Verification development for a CHIP-8 virtual machine implemented in Rust
  (src/cpu.rs, src/display.rs, src/keyboard.rs).

  Shallow embedding: machine integers are Nat with explicit `% 2^w` where the
  Rust code wraps; byte arrays are total functions from addresses to values,
  with explicit bounds checks (returning Option, where `none` models a Rust
  index-out-of-range abort); timestamps (std::time::Instant) are Nat
  milliseconds; the random byte of opcode Cxkk and the current time are passed
  as explicit parameters.
-/

set_option maxRecDepth 16384

namespace Chip8

def MEMORY_SIZE : Nat := 4096

def COLS : Nat := 64

def ROWS : Nat := 32

/-- Pointwise update of a function-modelled array: arr[k] = x. -/
def upd (f : Nat → Nat) (k x : Nat) : Nat → Nat :=
  fun j => if j = k then x else f j

@[simp] theorem upd_same (f : Nat → Nat) (k x : Nat) : upd f k x k = x := by
  simp [upd]

theorem upd_ne (f : Nat → Nat) (k x j : Nat) (h : j ≠ k) : upd f k x j = f j := by
  simp [upd, h]

/-- Display buffer: 64 x 32 = 2048 cells, one per pixel (display.rs). -/
structure Display where
  block_arr : Nat → Nat

/-- display.rs set_block: toggles the block at (x, y) with XOR and reports
whether the block was erased (was on, now off). All call sites keep the index
x + y * 64 inside the 2048-entry array. -/
def Display.set_block (d : Display) (x y : Nat) : Display × Bool :=
  let block_idx := x + y * COLS
  let arr := upd d.block_arr block_idx (d.block_arr block_idx ^^^ 1)
  (⟨arr⟩, arr block_idx == 0)

/-- display.rs clear: all blocks off. -/
def Display.clear (_d : Display) : Display :=
  ⟨fun _ => 0⟩

/-- Raw key event payload forwarded by the capture thread (keyboard.rs):
a character key, the Esc key, or any other key code. -/
inductive RawKey where
  | char (c : Char)
  | esc
  | other
deriving DecidableEq

/-- The fixed key map of keyboard.rs (Keyboard::new). -/
def key_map (c : Char) : Option Nat :=
  if c = '1' then some 0x1
  else if c = '2' then some 0x2
  else if c = '3' then some 0x3
  else if c = '4' then some 0xC
  else if c = 'q' then some 0x4
  else if c = 'w' then some 0x5
  else if c = 'e' then some 0x6
  else if c = 'r' then some 0xD
  else if c = 'a' then some 0x7
  else if c = 's' then some 0x8
  else if c = 'd' then some 0x9
  else if c = 'f' then some 0xE
  else if c = 'z' then some 0xA
  else if c = 'x' then some 0x0
  else if c = 'c' then some 0xB
  else if c = 'v' then some 0xF
  else none

/-- Keyboard state (keyboard.rs). The mpsc channel contents are modelled as
the list of pending (key, timestamp) events in arrival order. -/
structure Keyboard where
  queue : List (RawKey × Nat)
  pressed_keys : Nat → Option Nat
  esc_pressed : Bool
  pause_toggle_on : Bool

/-- Loop body of keyboard.rs get_next_key, recursing over the queued events.
Returns (resolved value, pause_toggle_on, esc_pressed, remaining queue). -/
def getNextKeyAux (va : Nat) (ptog esc : Bool) :
    List (RawKey × Nat) → Option Nat × Bool × Bool × List (RawKey × Nat)
  | [] => (none, ptog, esc, [])
  | (k, ts) :: rest =>
    match k with
    | RawKey.char ch =>
      if ts < va then getNextKeyAux va ptog esc rest
      else
        match key_map ch with
        | some val => (some val, ptog, esc, rest)
        | none =>
          if ch = ' ' then (none, !ptog, esc, rest)
          else getNextKeyAux va ptog esc rest
    | RawKey.esc => (none, ptog, true, rest)
    | RawKey.other => getNextKeyAux va ptog esc rest

/-- keyboard.rs get_next_key: drains queued events looking for the first
mapped character key timestamped at or after valid_after. -/
def Keyboard.get_next_key (kb : Keyboard) (valid_after : Nat) :
    Option Nat × Keyboard :=
  let r := getNextKeyAux valid_after kb.pause_toggle_on kb.esc_pressed kb.queue
  (r.1, { kb with pause_toggle_on := r.2.1, esc_pressed := r.2.2.1, queue := r.2.2.2 })

/-- keyboard.rs is_key_pressed: a key is held iff its last press was within
the 100 ms TTL before `now`. -/
def Keyboard.is_key_pressed (kb : Keyboard) (key_val now : Nat) : Bool :=
  match kb.pressed_keys key_val with
  | some last_press => now - last_press < 100
  | none => false

/-- cpu.rs NextKeyParams: pending wait-for-key request of opcode Fx0A. -/
structure NextKeyParams where
  destination_idx : Nat
  valid_after : Nat

/-- cpu.rs Cpu state. The last_tick field (pure wall-clock bookkeeping)
is not modelled. -/
structure Cpu where
  memory : Nat → Nat
  v : Nat → Nat
  i : Nat
  delay_timer : Nat
  sound_timer : Nat
  pc : Nat
  stack : List Nat
  paused : Bool
  should_quit : Bool
  speed : Nat
  next_key_params : Option NextKeyParams
  display : Display
  keyboard : Keyboard

/-- Cpu::new with a zeroed display and an empty keyboard. -/
def new_cpu : Cpu :=
  { memory := fun _ => 0
    v := fun _ => 0
    i := 0
    delay_timer := 0
    sound_timer := 0
    pc := 0x200
    stack := []
    paused := false
    should_quit := false
    speed := 11
    next_key_params := none
    display := ⟨fun _ => 0⟩
    keyboard := ⟨[], fun _ => none, false, false⟩ }

/-- Outcome of Cpu::load_rom on the in-memory copy step. The Ok/Err channel
of the Rust function only carries I/O failures from reading the file; an
oversized program makes the slice copy abort the process (index out of
range), which is the `panicked` outcome, not an error return. -/
inductive LoadResult where
  | ok (memory : Nat → Nat)
  | panicked

/-- cpu.rs load_rom, lines 98-105, modelled on the bytes already read from
the file: copies them into memory[0x200 .. 0x200+len), aborting when the
slice range exceeds MEMORY_SIZE. -/
def load_rom (mem : Nat → Nat) (file_bytes : List Nat) : LoadResult :=
  if 0x200 + file_bytes.length ≤ MEMORY_SIZE then
    LoadResult.ok (fun a =>
      if 0x200 ≤ a ∧ a < 0x200 + file_bytes.length then file_bytes.getD (a - 0x200) 0
      else mem a)
  else LoadResult.panicked

/-- cpu.rs update_timers, lines 176-183. -/
def update_timers (s : Cpu) : Cpu :=
  { s with
    delay_timer := if s.delay_timer > 0 then s.delay_timer - 1 else s.delay_timer
    sound_timer := if s.sound_timer > 0 then s.sound_timer - 1 else s.sound_timer }

/-- cpu.rs cycle, lines 138-140: after the instruction batch of a frame the
timers advance only when the machine is not paused. -/
def cycle_timer_step (s : Cpu) : Cpu :=
  if s.paused then s else update_timers s

/-- cpu.rs process_next_key, lines 159-174. `none` models the expect abort
when no wait-for-key request is pending (never reached from cycle). -/
def process_next_key (s : Cpu) : Option Cpu :=
  match s.next_key_params with
  | none => none
  | some params =>
    let r := s.keyboard.get_next_key params.valid_after
    let s1 := { s with keyboard := r.2 }
    match r.1 with
    | some val =>
      if r.2.esc_pressed || r.2.pause_toggle_on then some s1
      else some { s1 with
        v := upd s1.v params.destination_idx val
        paused := false
        next_key_params := none }
    | none => some s1

/-- Inner column loop of the Dxyn handler (cpu.rs lines 402-413): walks the
remaining `w` columns starting at `col`, testing the leftmost bit of the
(8-bit wrapping) shifted sprite row and toggling hit blocks. -/
def drawCols (xs yrow : Nat) : Nat → Nat → Nat → Display → Nat → Display × Nat
  | 0, _, _, d, vf => (d, vf)
  | w + 1, col, sprite_row, d, vf =>
    let step :=
      if sprite_row &&& 0x80 > 0 then
        let r := d.set_block (xs + col) yrow
        (r.1, if r.2 then 1 else vf)
      else (d, vf)
    drawCols xs yrow w (col + 1) (sprite_row * 2 % 256) step.1 step.2

/-- Row loop of the Dxyn handler (cpu.rs lines 399-414): reads each sprite
byte from memory (aborting on an out-of-range address) and blits its
columns. `h` rows remain, starting at `row`. -/
def drawRows (mem : Nat → Nat) (i xs ys w : Nat) :
    Nat → Nat → Display → Nat → Option (Display × Nat)
  | 0, _, d, vf => some (d, vf)
  | h + 1, row, d, vf =>
    if i + row < MEMORY_SIZE then
      let r := drawCols xs (ys + row) w 0 (mem (i + row)) d vf
      drawRows mem i xs ys w h (row + 1) r.1 r.2
    else none

/-- Family 0x0 of cpu.rs exec_instruction (lines 192-215): CLS, RET and the
ignored SYS row. `none` models the empty-stack abort of RET. -/
def exec_op0 (s : Cpu) (opcode : Nat) : Option Cpu :=
  if opcode = 0x00E0 then some { s with display := s.display.clear }
  else if opcode = 0x00EE then
    match s.stack with
    | addr :: rest => some { s with pc := addr, stack := rest }
    | [] => none
  else some s

/-- 1nnn JP addr (cpu.rs lines 217-221). -/
def exec_op1 (s : Cpu) (opcode : Nat) : Option Cpu :=
  some { s with pc := opcode % 4096 }

/-- 2nnn CALL addr (cpu.rs lines 223-229). -/
def exec_op2 (s : Cpu) (opcode : Nat) : Option Cpu :=
  some { s with stack := s.pc :: s.stack, pc := opcode % 4096 }

/-- 3xkk SE Vx, byte (cpu.rs lines 231-238). -/
def exec_op3 (s : Cpu) (opcode : Nat) : Option Cpu :=
  some (if s.v (opcode / 256 % 16) = opcode % 256
    then { s with pc := (s.pc + 2) % 65536 } else s)

/-- 4xkk SNE Vx, byte (cpu.rs lines 240-247). -/
def exec_op4 (s : Cpu) (opcode : Nat) : Option Cpu :=
  some (if s.v (opcode / 256 % 16) ≠ opcode % 256
    then { s with pc := (s.pc + 2) % 65536 } else s)

/-- 5xy0 SE Vx, Vy (cpu.rs lines 249-256). -/
def exec_op5 (s : Cpu) (opcode : Nat) : Option Cpu :=
  some (if s.v (opcode / 256 % 16) = s.v (opcode / 16 % 16)
    then { s with pc := (s.pc + 2) % 65536 } else s)

/-- 6xkk LD Vx, byte (cpu.rs lines 258-262). -/
def exec_op6 (s : Cpu) (opcode : Nat) : Option Cpu :=
  some { s with v := upd s.v (opcode / 256 % 16) (opcode % 256) }

/-- 7xkk ADD Vx, byte (cpu.rs lines 264-268): the full opcode is added as a
u16 and truncated to a byte. -/
def exec_op7 (s : Cpu) (opcode : Nat) : Option Cpu :=
  let x := opcode / 256 % 16
  some { s with v := upd s.v x ((s.v x + opcode) % 256) }

/-- Family 0x8 of cpu.rs exec_instruction (lines 269-348): register ALU ops.
The flag writes of 8xy4..8xyE follow the exact source order, so the aliasing
behavior when x = 0xF is preserved. Wrapping subtraction of bytes a, b is
(a + 256 - b) % 256. -/
def exec_op8 (s : Cpu) (opcode : Nat) : Option Cpu :=
  let x := opcode / 256 % 16
  let y := opcode / 16 % 16
  let l := opcode % 16
  if l = 0x0 then some { s with v := upd s.v x (s.v y) }
  else if l = 0x1 then some { s with v := upd s.v x (s.v x ||| s.v y) }
  else if l = 0x2 then some { s with v := upd s.v x (s.v x &&& s.v y) }
  else if l = 0x3 then some { s with v := upd s.v x (s.v x ^^^ s.v y) }
  else if l = 0x4 then
    let sum := s.v x + s.v y
    let v1 := upd s.v x (sum % 256)
    some { s with v := upd v1 0xF (if sum > 0xFF then 1 else 0) }
  else if l = 0x5 then
    let v1 := upd s.v 0xF (if s.v x > s.v y then 1 else 0)
    some { s with v := upd v1 x ((v1 x + 256 - v1 y) % 256) }
  else if l = 0x6 then
    let v1 := upd s.v 0xF (s.v x &&& 0x1)
    some { s with v := upd v1 x (v1 x / 2) }
  else if l = 0x7 then
    let v1 := upd s.v 0xF (if s.v y > s.v x then 1 else 0)
    some { s with v := upd v1 x ((v1 y + 256 - v1 x) % 256) }
  else if l = 0xE then
    let v1 := upd s.v 0xF (s.v x &&& 0x80)
    some { s with v := upd v1 x (v1 x * 2 % 256) }
  else some s

/-- 9xy0 SNE Vx, Vy (cpu.rs lines 350-357). -/
def exec_op9 (s : Cpu) (opcode : Nat) : Option Cpu :=
  some (if s.v (opcode / 256 % 16) ≠ s.v (opcode / 16 % 16)
    then { s with pc := (s.pc + 2) % 65536 } else s)

/-- Annn LD I, addr (cpu.rs lines 359-363). -/
def exec_opA (s : Cpu) (opcode : Nat) : Option Cpu :=
  some { s with i := opcode % 4096 }

/-- Bnnn JP V0, addr (cpu.rs lines 365-369). -/
def exec_opB (s : Cpu) (opcode : Nat) : Option Cpu :=
  some { s with pc := opcode % 4096 + s.v 0x0 }

/-- Cxkk RND Vx, byte (cpu.rs lines 371-377), with the drawn random byte
passed in. -/
def exec_opC (s : Cpu) (opcode rand : Nat) : Option Cpu :=
  some { s with v := upd s.v (opcode / 256 % 16) (rand % 256 &&& opcode % 256) }

/-- Dxyn DRW (cpu.rs lines 379-415): start coordinates are Vx mod 64 and
Vy mod 32, rows and columns past the far edges are clipped by the min
bounds, VF starts at 0 and records collisions. -/
def exec_opD (s : Cpu) (opcode : Nat) : Option Cpu :=
  let x := opcode / 256 % 16
  let y := opcode / 16 % 16
  let n := opcode % 16
  let xs := s.v x % 64
  let ys := s.v y % 32
  match drawRows s.memory s.i xs ys (min 8 (64 - xs)) (min n (32 - ys)) 0 s.display 0 with
  | some r => some { s with display := r.1, v := upd s.v 0xF r.2 }
  | none => none

/-- Family 0xE of cpu.rs exec_instruction (lines 416-438): SKP / SKNP. -/
def exec_opE (s : Cpu) (opcode now : Nat) : Option Cpu :=
  let x := opcode / 256 % 16
  let kk := opcode % 256
  if kk = 0x9E then
    some (if s.keyboard.is_key_pressed (s.v x) now
      then { s with pc := (s.pc + 2) % 65536 } else s)
  else if kk = 0xA1 then
    some (if !(s.keyboard.is_key_pressed (s.v x) now)
      then { s with pc := (s.pc + 2) % 65536 } else s)
  else some s

/-- Family 0xF of cpu.rs exec_instruction (lines 439-511): timers, wait for
key, index arithmetic, BCD and register/memory block copies. `none` models
the index-out-of-range aborts of Fx33 / Fx55 / Fx65. -/
def exec_opF (s : Cpu) (opcode now : Nat) : Option Cpu :=
  let x := opcode / 256 % 16
  let kk := opcode % 256
  if kk = 0x07 then some { s with v := upd s.v x s.delay_timer }
  else if kk = 0x0A then
    some { s with next_key_params := some ⟨x, now⟩, paused := true }
  else if kk = 0x15 then some { s with delay_timer := s.v x }
  else if kk = 0x18 then some { s with sound_timer := s.v x }
  else if kk = 0x1E then some { s with i := (s.i + s.v x) % 65536 }
  else if kk = 0x29 then some { s with i := s.v x * 5 }
  else if kk = 0x33 then
    if s.i + 2 < MEMORY_SIZE then
      let m1 := upd s.memory s.i (s.v x / 100)
      let m2 := upd m1 (s.i + 1) (s.v x % 100 / 10)
      let m3 := upd m2 (s.i + 2) (s.v x % 10)
      some { s with memory := m3 }
    else none
  else if kk = 0x55 then
    if s.i + x < MEMORY_SIZE then
      some { s with memory := fun a =>
        if s.i ≤ a ∧ a ≤ s.i + x then s.v (a - s.i) else s.memory a }
    else none
  else if kk = 0x65 then
    if s.i + x < MEMORY_SIZE then
      some { s with v := fun j => if j ≤ x then s.memory (s.i + j) else s.v j }
    else none
  else some s

/-- Top-nibble dispatch of cpu.rs exec_instruction (the match on
opcode & 0xF000, lines 191-512), applied after the program counter advance.
The final `none` arm is the fatal unknown-opcode branch of the source. -/
def exec_dispatch (s : Cpu) (opcode now rand : Nat) : Option Cpu :=
  if opcode / 4096 = 0x0 then exec_op0 s opcode
  else if opcode / 4096 = 0x1 then exec_op1 s opcode
  else if opcode / 4096 = 0x2 then exec_op2 s opcode
  else if opcode / 4096 = 0x3 then exec_op3 s opcode
  else if opcode / 4096 = 0x4 then exec_op4 s opcode
  else if opcode / 4096 = 0x5 then exec_op5 s opcode
  else if opcode / 4096 = 0x6 then exec_op6 s opcode
  else if opcode / 4096 = 0x7 then exec_op7 s opcode
  else if opcode / 4096 = 0x8 then exec_op8 s opcode
  else if opcode / 4096 = 0x9 then exec_op9 s opcode
  else if opcode / 4096 = 0xA then exec_opA s opcode
  else if opcode / 4096 = 0xB then exec_opB s opcode
  else if opcode / 4096 = 0xC then exec_opC s opcode rand
  else if opcode / 4096 = 0xD then exec_opD s opcode
  else if opcode / 4096 = 0xE then exec_opE s opcode now
  else if opcode / 4096 = 0xF then exec_opF s opcode now
  else none

/-- cpu.rs exec_instruction, lines 185-514: the program counter advances by
2 (with u16 wrap) and the opcode is dispatched on its top nibble. `now` is
the current time and `rand` the byte drawn for Cxkk. -/
def exec_instruction (s0 : Cpu) (opcode now rand : Nat) : Option Cpu :=
  exec_dispatch { s0 with pc := (s0.pc + 2) % 65536 } opcode now rand

/-- C4: for all 8-bit values a in Vx and b in Vy with x not 0xF, opcode 8xy4
stores (a + b) mod 256 into Vx and sets VF to 1 exactly when a + b exceeds
255, and to 0 otherwise. -/
theorem c4_add_carry (s : Cpu) (x y now rand a b : Nat)
    (hx : x < 16) (hy : y < 16) (hxF : x ≠ 0xF)
    (ha : s.v x = a) (hb : s.v y = b) (ha2 : a < 256) (hb2 : b < 256) :
    ∃ s', exec_instruction s (0x8004 + 256 * x + 16 * y) now rand = some s' ∧
      s'.v x = (a + b) % 256 ∧
      s'.v 0xF = if a + b > 255 then 1 else 0 := by
  have ht : (0x8004 + 256 * x + 16 * y) / 4096 = 8 := by omega
  have hxd : (0x8004 + 256 * x + 16 * y) / 256 % 16 = x := by omega
  have hyd : (0x8004 + 256 * x + 16 * y) / 16 % 16 = y := by omega
  have hl : (0x8004 + 256 * x + 16 * y) % 16 = 4 := by omega
  simp only [exec_instruction, exec_dispatch, exec_op8, ht, hxd, hyd, hl]
  norm_num
  constructor
  · rw [upd_ne _ _ _ _ hxF, upd_same, ha, hb]
  · rw [ha, hb]

/-- Witness for c4_add_carry: V1 = 200, V2 = 100, opcode 8124 gives
V1 = 44 and VF = 1. -/
theorem c4_add_carry_witness :
    ∃ s', exec_instruction
        { new_cpu with v := upd (upd new_cpu.v 1 200) 2 100 }
        (0x8004 + 256 * 1 + 16 * 2) 0 0 = some s' ∧
      s'.v 1 = (200 + 100) % 256 ∧
      s'.v 0xF = if 200 + 100 > 255 then 1 else 0 :=
  c4_add_carry { new_cpu with v := upd (upd new_cpu.v 1 200) 2 100 }
    1 2 0 0 200 100 (by decide) (by decide) (by decide)
    (by simp [upd]) (by simp [upd]) (by decide) (by decide)

/-- C5: with x not 0xF and a the 8-bit value in Vx, opcode 8xy6 sets VF to
the least-significant bit of a and Vx to a >> 1, and opcode 8xyE sets VF to
a AND 0x80 (0 or 0x80, not normalized to 0 or 1) and Vx to (a << 1) mod 256;
the flags are computed from the pre-shift value of Vx. -/
theorem c5_shift_flags (s : Cpu) (x y now rand a : Nat)
    (hx : x < 16) (hy : y < 16) (hxF : x ≠ 0xF) (ha : s.v x = a) (ha2 : a < 256) :
    (∃ s', exec_instruction s (0x8006 + 256 * x + 16 * y) now rand = some s' ∧
      s'.v 0xF = a % 2 ∧ s'.v x = a / 2) ∧
    (∃ s', exec_instruction s (0x800E + 256 * x + 16 * y) now rand = some s' ∧
      s'.v 0xF = a &&& 0x80 ∧ s'.v x = a * 2 % 256) := by
  have hxF2 : (0xF : Nat) ≠ x := Ne.symm hxF
  constructor
  · have ht : (0x8006 + 256 * x + 16 * y) / 4096 = 8 := by omega
    have hxd : (0x8006 + 256 * x + 16 * y) / 256 % 16 = x := by omega
    have hyd : (0x8006 + 256 * x + 16 * y) / 16 % 16 = y := by omega
    have hl : (0x8006 + 256 * x + 16 * y) % 16 = 6 := by omega
    simp only [exec_instruction, exec_dispatch, exec_op8, ht, hxd, hyd, hl]
    norm_num
    constructor
    · rw [upd_ne _ _ _ _ hxF2, upd_same, ha]
    · rw [upd_ne _ _ _ _ hxF, ha]
  · have ht : (0x800E + 256 * x + 16 * y) / 4096 = 8 := by omega
    have hxd : (0x800E + 256 * x + 16 * y) / 256 % 16 = x := by omega
    have hyd : (0x800E + 256 * x + 16 * y) / 16 % 16 = y := by omega
    have hl : (0x800E + 256 * x + 16 * y) % 16 = 14 := by omega
    simp only [exec_instruction, exec_dispatch, exec_op8, ht, hxd, hyd, hl]
    norm_num
    constructor
    · rw [upd_ne _ _ _ _ hxF2, upd_same, ha]
    · rw [upd_ne _ _ _ _ hxF, ha]

/-- Witness for c5_shift_flags: V3 = 0xA5, opcodes 8306 and 830E. -/
theorem c5_shift_flags_witness :
    (∃ s', exec_instruction { new_cpu with v := upd new_cpu.v 3 0xA5 }
        (0x8006 + 256 * 3 + 16 * 0) 0 0 = some s' ∧
      s'.v 0xF = 0xA5 % 2 ∧ s'.v 3 = 0xA5 / 2) ∧
    (∃ s', exec_instruction { new_cpu with v := upd new_cpu.v 3 0xA5 }
        (0x800E + 256 * 3 + 16 * 0) 0 0 = some s' ∧
      s'.v 0xF = 0xA5 &&& 0x80 ∧ s'.v 3 = 0xA5 * 2 % 256) :=
  c5_shift_flags { new_cpu with v := upd new_cpu.v 3 0xA5 }
    3 0 0 0 0xA5 (by decide) (by decide) (by decide) (by simp [upd]) (by decide)

/-- C10: when the destination register aliases the flag register (x = 0xF),
opcode 8xy5 writes the borrow flag f into VF first and then overwrites it
with the wrapped difference (f - Vy) mod 256, opcode 8xy7 symmetrically
leaves VF = (Vy - f) mod 256 with f computed against the old VF, while
opcode 8xy4 computes the sum from the original operands first and leaves VF
equal to the 0/1 carry flag. -/
theorem c10_vf_alias (s : Cpu) (y now rand b f0 : Nat)
    (hy : y < 16) (hyF : y ≠ 0xF) (hb : s.v y = b) (hf : s.v 0xF = f0)
    (hb2 : b < 256) (hf2 : f0 < 256) :
    (∃ s', exec_instruction s (0x8F05 + 16 * y) now rand = some s' ∧
      s'.v 0xF = ((if f0 > b then 1 else 0) + 256 - b) % 256) ∧
    (∃ s', exec_instruction s (0x8F07 + 16 * y) now rand = some s' ∧
      s'.v 0xF = (b + 256 - (if b > f0 then 1 else 0)) % 256) ∧
    (∃ s', exec_instruction s (0x8F04 + 16 * y) now rand = some s' ∧
      s'.v 0xF = if f0 + b > 255 then 1 else 0) := by
  refine ⟨?_, ?_, ?_⟩
  · have ht : (0x8F05 + 16 * y) / 4096 = 8 := by omega
    have hxd : (0x8F05 + 16 * y) / 256 % 16 = 15 := by omega
    have hyd : (0x8F05 + 16 * y) / 16 % 16 = y := by omega
    have hl : (0x8F05 + 16 * y) % 16 = 5 := by omega
    simp only [exec_instruction, exec_dispatch, exec_op8, ht, hxd, hyd, hl]
    norm_num
    rw [upd_ne _ _ _ _ hyF, hb, hf]
  · have ht : (0x8F07 + 16 * y) / 4096 = 8 := by omega
    have hxd : (0x8F07 + 16 * y) / 256 % 16 = 15 := by omega
    have hyd : (0x8F07 + 16 * y) / 16 % 16 = y := by omega
    have hl : (0x8F07 + 16 * y) % 16 = 7 := by omega
    simp only [exec_instruction, exec_dispatch, exec_op8, ht, hxd, hyd, hl]
    norm_num
    rw [upd_ne _ _ _ _ hyF, hb, hf]
  · have ht : (0x8F04 + 16 * y) / 4096 = 8 := by omega
    have hxd : (0x8F04 + 16 * y) / 256 % 16 = 15 := by omega
    have hyd : (0x8F04 + 16 * y) / 16 % 16 = y := by omega
    have hl : (0x8F04 + 16 * y) % 16 = 4 := by omega
    simp only [exec_instruction, exec_dispatch, exec_op8, ht, hxd, hyd, hl]
    norm_num
    rw [hf, hb]

/-- Witness for c10_vf_alias: VF = 5, V2 = 3, opcodes 8F25, 8F27, 8F24. -/
theorem c10_vf_alias_witness :
    (∃ s', exec_instruction
        { new_cpu with v := upd (upd new_cpu.v 2 3) 0xF 5 }
        (0x8F05 + 16 * 2) 0 0 = some s' ∧
      s'.v 0xF = ((if 5 > 3 then 1 else 0) + 256 - 3) % 256) ∧
    (∃ s', exec_instruction
        { new_cpu with v := upd (upd new_cpu.v 2 3) 0xF 5 }
        (0x8F07 + 16 * 2) 0 0 = some s' ∧
      s'.v 0xF = (3 + 256 - (if 3 > 5 then 1 else 0)) % 256) ∧
    (∃ s', exec_instruction
        { new_cpu with v := upd (upd new_cpu.v 2 3) 0xF 5 }
        (0x8F04 + 16 * 2) 0 0 = some s' ∧
      s'.v 0xF = if 5 + 3 > 255 then 1 else 0) :=
  c10_vf_alias { new_cpu with v := upd (upd new_cpu.v 2 3) 0xF 5 }
    2 0 0 3 5 (by decide) (by decide) (by simp [upd]) (by simp [upd])
    (by decide) (by decide)

/-- An opcode value outside the instruction table: families 0x8, 0xE and 0xF
with a sub-selector matching no row (every other family accepts all its
sub-encodings, and 0nnn is the documented legacy no-op row). -/
def unknown_opcode (op : Nat) : Prop :=
  (op / 4096 = 0x8 ∧
    ¬(op % 16 = 0x0 ∨ op % 16 = 0x1 ∨ op % 16 = 0x2 ∨ op % 16 = 0x3 ∨
      op % 16 = 0x4 ∨ op % 16 = 0x5 ∨ op % 16 = 0x6 ∨ op % 16 = 0x7 ∨
      op % 16 = 0xE)) ∨
  (op / 4096 = 0xE ∧ ¬(op % 256 = 0x9E ∨ op % 256 = 0xA1)) ∨
  (op / 4096 = 0xF ∧
    ¬(op % 256 = 0x07 ∨ op % 256 = 0x0A ∨ op % 256 = 0x15 ∨ op % 256 = 0x18 ∨
      op % 256 = 0x1E ∨ op % 256 = 0x29 ∨ op % 256 = 0x33 ∨ op % 256 = 0x55 ∨
      op % 256 = 0x65))

/-- Counterexample to C1: opcode 0xFFFF is not in the instruction table, yet
executing it does not abort; it returns normally with every machine component
unchanged except the program counter advance, because the top-nibble match
covers all sixteen families and the family 0xF sub-match falls through to a
silent no-op. -/
theorem c1_counterexample :
    exec_instruction new_cpu 0xFFFF 0 0 =
      some { new_cpu with pc := (0x200 + 2) % 65536 } := by
  rfl

/-- C1 amended: an opcode not listed in the instruction table never reaches
the fatal unknown-opcode arm (which is unreachable, since every top nibble
selects a family); it executes as a silent no-op whose only effect is the
program counter advancing by 2. -/
theorem c1_amended (s : Cpu) (op now rand : Nat) (h : unknown_opcode op) :
    exec_instruction s op now rand = some { s with pc := (s.pc + 2) % 65536 } := by
  rcases h with ⟨h1, h2⟩ | ⟨h1, h2⟩ | ⟨h1, h2⟩ <;> push_neg at h2
  · obtain ⟨n0, n1, n2, n3, n4, n5, n6, n7, nE⟩ := h2
    simp only [exec_instruction, exec_dispatch, exec_op8, h1]
    norm_num
    simp only [if_neg n0, if_neg n1, if_neg n2, if_neg n3, if_neg n4, if_neg n5,
      if_neg n6, if_neg n7, if_neg nE]
  · obtain ⟨n0, n1⟩ := h2
    simp only [exec_instruction, exec_dispatch, exec_opE, h1]
    norm_num
    simp only [if_neg n0, if_neg n1]
  · obtain ⟨n0, n1, n2, n3, n4, n5, n6, n7, n8⟩ := h2
    simp only [exec_instruction, exec_dispatch, exec_opF, h1]
    norm_num
    simp only [if_neg n0, if_neg n1, if_neg n2, if_neg n3, if_neg n4, if_neg n5,
      if_neg n6, if_neg n7, if_neg n8]

/-- Witness for c1_amended at opcode 0xFFFF on a fresh machine. -/
theorem c1_amended_witness :
    exec_instruction new_cpu 0xFFFF 0 0 =
      some { new_cpu with pc := (new_cpu.pc + 2) % 65536 } :=
  c1_amended new_cpu 0xFFFF 0 0 (by unfold unknown_opcode; decide)

/-- Counterexample to C2: a 3897-byte program does not fit (0x200 + 3897 =
4409 > 4096), and load_rom aborts with an index-out-of-range panic instead of
returning a bounds error through its Result channel (whose Err values only
ever come from reading the file). -/
theorem c2_counterexample :
    load_rom (fun _ => 0) (List.replicate 3897 0) = LoadResult.panicked := by
  unfold load_rom
  simp only [List.length_replicate]
  norm_num [MEMORY_SIZE]

/-- C2 amended: when the program does not fit below the 4096-byte bound the
copy panics (slice index out of range, an abort rather than an error return);
when it fits, the bytes land at 0x200 onward and all other memory is
unchanged. -/
theorem c2_amended (mem : Nat → Nat) (bytes : List Nat) :
    (0x200 + bytes.length > MEMORY_SIZE → load_rom mem bytes = LoadResult.panicked) ∧
    (0x200 + bytes.length ≤ MEMORY_SIZE →
      ∃ m, load_rom mem bytes = LoadResult.ok m ∧
        (∀ k, k < bytes.length → m (0x200 + k) = bytes.getD k 0) ∧
        (∀ a, a < 0x200 ∨ 0x200 + bytes.length ≤ a → m a = mem a)) := by
  constructor
  · intro h
    rw [load_rom, if_neg (by omega)]
  · intro h
    rw [load_rom, if_pos h]
    refine ⟨_, rfl, ?_, ?_⟩
    · intro k hk
      rw [if_pos (by omega)]
      congr 1
      omega
    · intro a ha
      rw [if_neg (by omega)]

/-- Witness for c2_amended: loading the two bytes [0xAB, 0xCD] into a zeroed
memory succeeds, places them at 0x200 and 0x201, and leaves address 0 alone. -/
theorem c2_amended_witness :
    ∃ m, load_rom (fun _ => 0) [0xAB, 0xCD] = LoadResult.ok m ∧
      (∀ k, k < (2 : Nat) → m (0x200 + k) = [0xAB, 0xCD].getD k 0) ∧
      (∀ a, a < 0x200 ∨ 0x200 + (2 : Nat) ≤ a → m a = (fun _ => (0 : Nat)) a) :=
  (c2_amended (fun _ => 0) [0xAB, 0xCD]).2 (by norm_num [MEMORY_SIZE])

/-- C9: opcode Fx33 with I + 2 at most 4095, and opcode Fx55 with I + x at
most 4095, only write memory at addresses below 4096; when those bounds fail
the instruction aborts (index out of range) instead of writing out of bounds
or wrapping. -/
theorem c9_memory_bounds (s : Cpu) (x now rand : Nat) (hx : x < 16) :
    (s.i + 2 < 4096 →
      ∃ s', exec_instruction s (0xF033 + 256 * x) now rand = some s' ∧
        ∀ a, s'.memory a ≠ s.memory a → a < 4096) ∧
    (¬(s.i + 2 < 4096) → exec_instruction s (0xF033 + 256 * x) now rand = none) ∧
    (s.i + x < 4096 →
      ∃ s', exec_instruction s (0xF055 + 256 * x) now rand = some s' ∧
        ∀ a, s'.memory a ≠ s.memory a → a < 4096) ∧
    (¬(s.i + x < 4096) → exec_instruction s (0xF055 + 256 * x) now rand = none) := by
  have ht3 : (0xF033 + 256 * x) / 4096 = 0xF := by omega
  have hk3 : (0xF033 + 256 * x) % 256 = 0x33 := by omega
  have ht5 : (0xF055 + 256 * x) / 4096 = 0xF := by omega
  have hk5 : (0xF055 + 256 * x) % 256 = 0x55 := by omega
  have hx5 : (0xF055 + 256 * x) / 256 % 16 = x := by omega
  refine ⟨?_, ?_, ?_, ?_⟩
  · intro h
    simp only [exec_instruction, exec_dispatch, exec_opF, ht3, hk3]
    norm_num
    refine ⟨_, ⟨h, rfl⟩, ?_⟩
    intro a ha
    by_contra hc
    push_neg at hc
    apply ha
    simp only [upd]
    rw [if_neg (by omega), if_neg (by omega), if_neg (by omega)]
  · intro h
    simp only [exec_instruction, exec_dispatch, exec_opF, ht3, hk3]
    norm_num
    intro hc
    exact absurd hc h
  · intro h
    simp only [exec_instruction, exec_dispatch, exec_opF, ht5, hk5, hx5]
    norm_num
    refine ⟨_, ⟨h, rfl⟩, ?_⟩
    intro a ha
    by_contra hc
    push_neg at hc
    apply ha
    show (if s.i ≤ a ∧ a ≤ s.i + x then s.v (a - s.i) else s.memory a) = s.memory a
    rw [if_neg (by omega)]
  · intro h
    simp only [exec_instruction, exec_dispatch, exec_opF, ht5, hk5, hx5]
    norm_num
    intro hc
    exact absurd hc h

/-- Witness for c9_memory_bounds: I = 100, x = 2, both in-bounds parts and
(via a second state with I = 4095) both abort parts. -/
theorem c9_memory_bounds_witness :
    (∃ s', exec_instruction { new_cpu with i := 100 } (0xF033 + 256 * 2) 0 0 = some s' ∧
      ∀ a, s'.memory a ≠ ({ new_cpu with i := 100 } : Cpu).memory a → a < 4096) ∧
    (exec_instruction { new_cpu with i := 4095 } (0xF033 + 256 * 2) 0 0 = none) ∧
    (∃ s', exec_instruction { new_cpu with i := 100 } (0xF055 + 256 * 2) 0 0 = some s' ∧
      ∀ a, s'.memory a ≠ ({ new_cpu with i := 100 } : Cpu).memory a → a < 4096) ∧
    (exec_instruction { new_cpu with i := 4095 } (0xF055 + 256 * 2) 0 0 = none) :=
  ⟨(c9_memory_bounds { new_cpu with i := 100 } 2 0 0 (by decide)).1 (by norm_num),
   (c9_memory_bounds { new_cpu with i := 4095 } 2 0 0 (by decide)).2.1 (by norm_num),
   (c9_memory_bounds { new_cpu with i := 100 } 2 0 0 (by decide)).2.2.1 (by norm_num),
   (c9_memory_bounds { new_cpu with i := 4095 } 2 0 0 (by decide)).2.2.2 (by norm_num)⟩

set_option maxHeartbeats 2000000 in
/-- Helper: no dispatch target other than Fx15 / Fx18 writes either timer. -/
theorem exec_dispatch_timers (s : Cpu) (op now rand : Nat) (s' : Cpu)
    (hop : ¬(op / 4096 = 0xF ∧ (op % 256 = 0x15 ∨ op % 256 = 0x18)))
    (h : exec_dispatch s op now rand = some s') :
    s'.delay_timer = s.delay_timer ∧ s'.sound_timer = s.sound_timer := by
  have hcase : op / 4096 = 0 ∨ op / 4096 = 1 ∨ op / 4096 = 2 ∨ op / 4096 = 3 ∨
      op / 4096 = 4 ∨ op / 4096 = 5 ∨ op / 4096 = 6 ∨ op / 4096 = 7 ∨
      op / 4096 = 8 ∨ op / 4096 = 9 ∨ op / 4096 = 10 ∨ op / 4096 = 11 ∨
      op / 4096 = 12 ∨ op / 4096 = 13 ∨ op / 4096 = 14 ∨ op / 4096 = 15 ∨
      16 ≤ op / 4096 := by omega
  unfold exec_dispatch at h
  rcases hcase with hc|hc|hc|hc|hc|hc|hc|hc|hc|hc|hc|hc|hc|hc|hc|hc|hc
  on_goal 17 =>
    iterate 16 rw [if_neg (by omega)] at h
    exact Option.noConfusion h
  all_goals rw [hc] at h
  all_goals norm_num at h
  all_goals simp only [exec_op0, exec_op1, exec_op2, exec_op3, exec_op4,
    exec_op5, exec_op6, exec_op7, exec_op8, exec_op9, exec_opA, exec_opB,
    exec_opC, exec_opD, exec_opE, exec_opF] at h
  on_goal 16 =>
    have hk : op % 256 = 7 ∨ op % 256 = 10 ∨ op % 256 = 21 ∨ op % 256 = 24 ∨
        op % 256 = 30 ∨ op % 256 = 41 ∨ op % 256 = 51 ∨ op % 256 = 85 ∨
        op % 256 = 101 ∨ (op % 256 ≠ 7 ∧ op % 256 ≠ 10 ∧ op % 256 ≠ 21 ∧
        op % 256 ≠ 24 ∧ op % 256 ≠ 30 ∧ op % 256 ≠ 41 ∧ op % 256 ≠ 51 ∧
        op % 256 ≠ 85 ∧ op % 256 ≠ 101) := by omega
    rcases hk with hk|hk|hk|hk|hk|hk|hk|hk|hk|⟨k1,k2,k3,k4,k5,k6,k7,k8,k9⟩
    on_goal 10 =>
      rw [if_neg k1, if_neg k2, if_neg k3, if_neg k4, if_neg k5, if_neg k6,
        if_neg k7, if_neg k8, if_neg k9] at h
      injection h with h2
      subst h2
      exact ⟨rfl, rfl⟩
    all_goals rw [hk] at h
    all_goals norm_num at h
    all_goals first
      | exact absurd (by omega) hop
      | (subst h; exact ⟨rfl, rfl⟩)
      | (injection h with h2; subst h2; exact ⟨rfl, rfl⟩)
      | (obtain ⟨hcc, h2⟩ := h; subst h2; exact ⟨rfl, rfl⟩)
      | (split at h <;>
          first
            | (subst h; exact ⟨rfl, rfl⟩)
            | (injection h with h2; subst h2; exact ⟨rfl, rfl⟩)
            | exact Option.noConfusion h)
  all_goals repeat' split at h
  all_goals first
    | exact absurd (by omega) hop
    | (injection h with h2; subst h2; exact ⟨rfl, rfl⟩)
    | exact Option.noConfusion h

/-- C7: the per-frame timer step decrements each timer by exactly 1 clamped
at 0 (truncated Nat subtraction), the end-of-frame step leaves the timers
untouched when the machine ends the batch paused, and no instruction other
than Fx15 and Fx18 ever writes either timer. -/
theorem c7_timer_discipline :
    (∀ s : Cpu, (update_timers s).delay_timer = s.delay_timer - 1 ∧
      (update_timers s).sound_timer = s.sound_timer - 1) ∧
    (∀ s : Cpu, s.paused = true → cycle_timer_step s = s) ∧
    (∀ (s : Cpu) (op now rand : Nat) (s' : Cpu),
      ¬(op / 4096 = 0xF ∧ (op % 256 = 0x15 ∨ op % 256 = 0x18)) →
      exec_instruction s op now rand = some s' →
      s'.delay_timer = s.delay_timer ∧ s'.sound_timer = s.sound_timer) := by
  refine ⟨?_, ?_, ?_⟩
  · intro s
    constructor <;> (simp only [update_timers]; split <;> omega)
  · intro s h
    simp [cycle_timer_step, h]
  · intro s op now rand s' hop hexec
    exact exec_dispatch_timers { s with pc := (s.pc + 2) % 65536 } op now rand s' hop hexec

/-- Witness for c7_timer_discipline: a machine with delay timer 5 and sound
timer 0, a paused machine, and the timer-preserving opcode 6305. -/
theorem c7_timer_discipline_witness :
    ((update_timers { new_cpu with delay_timer := 5 }).delay_timer =
        ({ new_cpu with delay_timer := 5 } : Cpu).delay_timer - 1 ∧
      (update_timers { new_cpu with delay_timer := 5 }).sound_timer =
        ({ new_cpu with delay_timer := 5 } : Cpu).sound_timer - 1) ∧
    cycle_timer_step { new_cpu with paused := true } = { new_cpu with paused := true } ∧
    (({ new_cpu with pc := (new_cpu.pc + 2) % 65536, v := upd new_cpu.v 3 5 } : Cpu).delay_timer
        = new_cpu.delay_timer ∧
      ({ new_cpu with pc := (new_cpu.pc + 2) % 65536, v := upd new_cpu.v 3 5 } : Cpu).sound_timer
        = new_cpu.sound_timer) :=
  ⟨c7_timer_discipline.1 { new_cpu with delay_timer := 5 },
   c7_timer_discipline.2.1 { new_cpu with paused := true } rfl,
   c7_timer_discipline.2.2 new_cpu 0x6305 0 0
     { new_cpu with pc := (new_cpu.pc + 2) % 65536, v := upd new_cpu.v 3 5 }
     (by decide) (by rfl)⟩

/-- The test applied by the column loop at relative column c: bit 7 of the
sprite row byte after c wrapping left shifts. -/
def colBit (sr c : Nat) : Prop :=
  sr * 2 ^ c % 256 &&& 0x80 > 0

/-- The pixels toggled by one run of the column loop: relative columns c
below the clip width whose sprite bit is set, at screen index
xs + (col + c) + yr * 64. -/
def colsHit (xs yr w col sr : Nat) (j : Nat) : Prop :=
  ∃ c, c < w ∧ colBit sr c ∧ j = xs + (col + c) + yr * 64

/-- A collision arises in the column loop iff some toggled pixel is on in
the incoming display g. -/
def colsColl (xs yr w col sr : Nat) (g : Nat → Nat) : Prop :=
  ∃ c, c < w ∧ colBit sr c ∧ g (xs + (col + c) + yr * 64) = 1

theorem colBit_zero (sr : Nat) (hsr : sr < 256) : colBit sr 0 ↔ sr &&& 0x80 > 0 := by
  unfold colBit
  rw [pow_zero, Nat.mul_one, Nat.mod_eq_of_lt hsr]

theorem colBit_step (sr c : Nat) : colBit (sr * 2 % 256) c ↔ colBit sr (c + 1) := by
  unfold colBit
  rw [Nat.mod_mul_mod]
  constructor <;> intro h
  · have e : sr * 2 * 2 ^ c = sr * 2 ^ (c + 1) := by ring
    rwa [e] at h
  · have e : sr * 2 * 2 ^ c = sr * 2 ^ (c + 1) := by ring
    rwa [e]

theorem drawCols_spec (xs yr : Nat) :
    ∀ (w col sr : Nat) (d : Display) (vf : Nat), sr < 256 →
    (∀ j, (colsHit xs yr w col sr j →
        (drawCols xs yr w col sr d vf).1.block_arr j = d.block_arr j ^^^ 1) ∧
      (¬colsHit xs yr w col sr j →
        (drawCols xs yr w col sr d vf).1.block_arr j = d.block_arr j)) ∧
    (colsColl xs yr w col sr d.block_arr → (drawCols xs yr w col sr d vf).2 = 1) ∧
    (¬colsColl xs yr w col sr d.block_arr → (drawCols xs yr w col sr d vf).2 = vf) := by
  intro w
  induction w with
  | zero =>
    intro col sr d vf _
    refine ⟨fun j => ⟨?_, fun _ => rfl⟩, ?_, fun _ => rfl⟩
    · rintro ⟨c, hc, -, -⟩
      omega
    · rintro ⟨c, hc, -, -⟩
      omega
  | succ w ih =>
    intro col sr d vf hsr
    have hsr2 : sr * 2 % 256 < 256 := Nat.mod_lt _ (by norm_num)
    have hsplit : ∀ j, colsHit xs yr (w + 1) col sr j ↔
        ((sr &&& 0x80 > 0) ∧ j = xs + col + yr * 64) ∨
          colsHit xs yr w (col + 1) (sr * 2 % 256) j := by
      intro j
      constructor
      · rintro ⟨c, hc, hbit, hj⟩
        match c with
        | 0 =>
          left
          exact ⟨(colBit_zero sr hsr).mp hbit, by omega⟩
        | Nat.succ c2 =>
          right
          exact ⟨c2, by omega, (colBit_step sr c2).mpr hbit, by omega⟩
      · rintro (⟨hbit, hj⟩ | ⟨c2, hc2, hbit, hj⟩)
        · exact ⟨0, by omega, (colBit_zero sr hsr).mpr hbit, by omega⟩
        · exact ⟨c2 + 1, by omega, (colBit_step sr c2).mp hbit, by omega⟩
      -- hsplit end
    have hsplitc : colsColl xs yr (w + 1) col sr d.block_arr ↔
        ((sr &&& 0x80 > 0) ∧ d.block_arr (xs + col + yr * 64) = 1) ∨
          colsColl xs yr w (col + 1) (sr * 2 % 256) d.block_arr := by
      constructor
      · rintro ⟨c, hc, hbit, hv⟩
        match c with
        | 0 =>
          left
          refine ⟨(colBit_zero sr hsr).mp hbit, ?_⟩
          rw [show xs + col + yr * 64 = xs + (col + 0) + yr * 64 from by omega]
          exact hv
        | Nat.succ c2 =>
          right
          refine ⟨c2, by omega, (colBit_step sr c2).mpr hbit, ?_⟩
          rw [show xs + (col + 1 + c2) + yr * 64 = xs + (col + (c2 + 1)) + yr * 64 from by omega]
          exact hv
      · rintro (⟨hbit, hv⟩ | ⟨c2, hc2, hbit, hv⟩)
        · refine ⟨0, by omega, (colBit_zero sr hsr).mpr hbit, ?_⟩
          rw [show xs + (col + 0) + yr * 64 = xs + col + yr * 64 from by omega]
          exact hv
        · refine ⟨c2 + 1, by omega, (colBit_step sr c2).mp hbit, ?_⟩
          rw [show xs + (col + (c2 + 1)) + yr * 64 = xs + (col + 1 + c2) + yr * 64 from by omega]
          exact hv
    by_cases hbit : sr &&& 0x80 > 0
    · -- the leftmost bit is set: the block at idx0 toggles
      have hrun : drawCols xs yr (w + 1) col sr d vf =
          drawCols xs yr w (col + 1) (sr * 2 % 256)
            ⟨upd d.block_arr (xs + col + yr * 64)
              (d.block_arr (xs + col + yr * 64) ^^^ 1)⟩
            (if d.block_arr (xs + col + yr * 64) = 1 then 1 else vf) := by
        simp only [drawCols, Display.set_block, COLS, if_pos hbit, upd_same]
        congr 1
        by_cases hone : d.block_arr (xs + col + yr * 64) = 1
        · rw [if_pos hone, hone]
          norm_num
        · rw [if_neg hone]
          have : d.block_arr (xs + col + yr * 64) ^^^ 1 ≠ 0 := by
            intro hz
            exact hone (Nat.xor_eq_zero.mp hz)
          simp [this]
      set d1 : Display := ⟨upd d.block_arr (xs + col + yr * 64)
        (d.block_arr (xs + col + yr * 64) ^^^ 1)⟩ with hd1
      set vf1 : Nat := if d.block_arr (xs + col + yr * 64) = 1 then 1 else vf with hvf1
      obtain ⟨ihd, ihc1, ihc2⟩ := ih (col + 1) (sr * 2 % 256) d1 vf1 hsr2
      have hne : ∀ j, colsHit xs yr w (col + 1) (sr * 2 % 256) j →
          j ≠ xs + col + yr * 64 := by
        rintro j ⟨c, hc, -, hj⟩
        omega
      have hd1eq : ∀ j, j ≠ xs + col + yr * 64 → d1.block_arr j = d.block_arr j := by
        intro j hj
        rw [hd1]
        exact upd_ne _ _ _ _ hj
      have hcolltr : colsColl xs yr w (col + 1) (sr * 2 % 256) d1.block_arr ↔
          colsColl xs yr w (col + 1) (sr * 2 % 256) d.block_arr := by
        constructor
        · rintro ⟨c, hc, hb, hv⟩
          refine ⟨c, hc, hb, ?_⟩
          rw [← hd1eq _ (by omega)]
          exact hv
        · rintro ⟨c, hc, hb, hv⟩
          refine ⟨c, hc, hb, ?_⟩
          rw [hd1eq _ (by omega)]
          exact hv
      refine ⟨?_, ?_, ?_⟩
      · intro j
        constructor
        · intro hhit
          rw [hrun]
          rcases (hsplit j).mp hhit with ⟨-, hj⟩ | hrest
          · subst hj
            rw [(ihd _).2 (fun hco => hne _ hco rfl)]
            rw [hd1]
            exact upd_same _ _ _
          · rw [(ihd j).1 hrest, hd1eq j (hne j hrest)]
        · intro hmiss
          rw [hrun]
          have h1 : ¬colsHit xs yr w (col + 1) (sr * 2 % 256) j :=
            fun hco => hmiss ((hsplit j).mpr (Or.inr hco))
          have h2 : j ≠ xs + col + yr * 64 :=
            fun hj => hmiss ((hsplit j).mpr (Or.inl ⟨hbit, hj⟩))
          rw [(ihd j).2 h1, hd1eq j h2]
      · intro hcoll
        rw [hrun]
        rcases hsplitc.mp hcoll with ⟨-, hone⟩ | hrest
        · by_cases hco : colsColl xs yr w (col + 1) (sr * 2 % 256) d1.block_arr
          · exact ihc1 hco
          · rw [ihc2 hco, hvf1, if_pos hone]
        · exact ihc1 (hcolltr.mpr hrest)
      · intro hmiss
        rw [hrun]
        have h1 : ¬colsColl xs yr w (col + 1) (sr * 2 % 256) d1.block_arr :=
          fun hco => hmiss (hsplitc.mpr (Or.inr (hcolltr.mp hco)))
        have h2 : ¬d.block_arr (xs + col + yr * 64) = 1 :=
          fun hone => hmiss (hsplitc.mpr (Or.inl ⟨hbit, hone⟩))
        rw [ihc2 h1, hvf1, if_neg h2]
    · -- leftmost bit clear: nothing toggles this column
      have hrun : drawCols xs yr (w + 1) col sr d vf =
          drawCols xs yr w (col + 1) (sr * 2 % 256) d vf := by
        simp only [drawCols, if_neg hbit]
      obtain ⟨ihd, ihc1, ihc2⟩ := ih (col + 1) (sr * 2 % 256) d vf hsr2
      have hsplit2 : ∀ j, colsHit xs yr (w + 1) col sr j ↔
          colsHit xs yr w (col + 1) (sr * 2 % 256) j := by
        intro j
        rw [hsplit j]
        constructor
        · rintro (⟨hb, -⟩ | hr)
          · exact absurd hb hbit
          · exact hr
        · exact Or.inr
      have hsplitc2 : colsColl xs yr (w + 1) col sr d.block_arr ↔
          colsColl xs yr w (col + 1) (sr * 2 % 256) d.block_arr := by
        rw [hsplitc]
        constructor
        · rintro (⟨hb, -⟩ | hr)
          · exact absurd hb hbit
          · exact hr
        · exact Or.inr
      refine ⟨?_, ?_, ?_⟩
      · intro j
        constructor
        · intro hhit
          rw [hrun, (ihd j).1 ((hsplit2 j).mp hhit)]
        · intro hmiss
          rw [hrun, (ihd j).2 (fun hco => hmiss ((hsplit2 j).mpr hco))]
      · intro hcoll
        rw [hrun]
        exact ihc1 (hsplitc2.mp hcoll)
      · intro hmiss
        rw [hrun]
        exact ihc2 (fun hco => hmiss (hsplitc2.mpr hco))

/-- The pixels toggled by the row loop: rows r below the clip height, each
contributing its column hits on screen row ys + row + r. -/
def rowsHit (mem : Nat → Nat) (i xs ys w h row : Nat) (j : Nat) : Prop :=
  ∃ r, r < h ∧ colsHit xs (ys + row + r) w 0 (mem (i + row + r)) j

/-- A collision arises in the row loop iff some toggled pixel is on in the
incoming display g. -/
def rowsColl (mem : Nat → Nat) (i xs ys w h row : Nat) (g : Nat → Nat) : Prop :=
  ∃ r, r < h ∧ colsColl xs (ys + row + r) w 0 (mem (i + row + r)) g

theorem colsHit_band (xs yr w sr j : Nat) (hw : w ≤ 64 - xs)
    (h : colsHit xs yr w 0 sr j) : xs ≤ j % 64 ∧ j % 64 < 64 ∧ j / 64 = yr := by
  obtain ⟨c, hc, -, hj⟩ := h
  omega

theorem colsColl_congr (xs yr w sr : Nat) (g1 g2 : Nat → Nat) (hw : w ≤ 64 - xs)
    (hg : ∀ j, j / 64 = yr → g1 j = g2 j) :
    colsColl xs yr w 0 sr g1 ↔ colsColl xs yr w 0 sr g2 := by
  constructor <;> rintro ⟨c, hc, hb, hv⟩ <;> refine ⟨c, hc, hb, ?_⟩
  · rw [← hg _ (by omega)]
    exact hv
  · rw [hg _ (by omega)]
    exact hv

theorem drawRows_spec (mem : Nat → Nat) (i xs ys w : Nat)
    (hm : ∀ a, mem a < 256) (hw : w ≤ 64 - xs) :
    ∀ (h row : Nat) (d : Display) (vf : Nat), i + row + h ≤ 4096 →
    ∃ d2 vf2, drawRows mem i xs ys w h row d vf = some (d2, vf2) ∧
      (∀ j, (rowsHit mem i xs ys w h row j → d2.block_arr j = d.block_arr j ^^^ 1) ∧
        (¬rowsHit mem i xs ys w h row j → d2.block_arr j = d.block_arr j)) ∧
      (rowsColl mem i xs ys w h row d.block_arr → vf2 = 1) ∧
      (¬rowsColl mem i xs ys w h row d.block_arr → vf2 = vf) := by
  intro h
  induction h with
  | zero =>
    intro row d vf _
    refine ⟨d, vf, rfl, fun j => ⟨?_, fun _ => rfl⟩, ?_, fun _ => rfl⟩
    · rintro ⟨r, hr, -⟩
      omega
    · rintro ⟨r, hr, -⟩
      omega
  | succ h ih =>
    intro row d vf hbound
    have hread : i + row < 4096 := by omega
    have hrun : drawRows mem i xs ys w (h + 1) row d vf =
        drawRows mem i xs ys w h (row + 1)
          (drawCols xs (ys + row) w 0 (mem (i + row)) d vf).1
          (drawCols xs (ys + row) w 0 (mem (i + row)) d vf).2 := by
      simp only [drawRows]
      rw [if_pos (show i + row < MEMORY_SIZE from hread)]
    obtain ⟨cd, cc1, cc2⟩ := drawCols_spec xs (ys + row) w 0 (mem (i + row)) d vf (hm _)
    obtain ⟨d2, vf2, hrec, ihd, ihc1, ihc2⟩ :=
      ih (row + 1) (drawCols xs (ys + row) w 0 (mem (i + row)) d vf).1
        (drawCols xs (ys + row) w 0 (mem (i + row)) d vf).2 (by omega)
    have hsplit : ∀ j, rowsHit mem i xs ys w (h + 1) row j ↔
        colsHit xs (ys + row) w 0 (mem (i + row)) j ∨
          rowsHit mem i xs ys w h (row + 1) j := by
      intro j
      constructor
      · rintro ⟨r, hr, hc⟩
        match r with
        | 0 =>
          left
          rw [show ys + row + 0 = ys + row from by omega,
            show i + row + 0 = i + row from by omega] at hc
          exact hc
        | Nat.succ r2 =>
          right
          refine ⟨r2, by omega, ?_⟩
          rw [show ys + (row + 1) + r2 = ys + row + (r2 + 1) from by omega,
            show i + (row + 1) + r2 = i + row + (r2 + 1) from by omega]
          exact hc
      · rintro (hc | ⟨r2, hr2, hc⟩)
        · refine ⟨0, by omega, ?_⟩
          rw [show ys + row + 0 = ys + row from by omega,
            show i + row + 0 = i + row from by omega]
          exact hc
        · refine ⟨r2 + 1, by omega, ?_⟩
          rw [show ys + row + (r2 + 1) = ys + (row + 1) + r2 from by omega,
            show i + row + (r2 + 1) = i + (row + 1) + r2 from by omega]
          exact hc
    have hdisj : ∀ j, colsHit xs (ys + row) w 0 (mem (i + row)) j →
        ¬rowsHit mem i xs ys w h (row + 1) j := by
      rintro j hc ⟨r2, hr2, hc2⟩
      have b1 := colsHit_band xs (ys + row) w (mem (i + row)) j hw hc
      have b2 := colsHit_band xs (ys + (row + 1) + r2) w (mem (i + (row + 1) + r2)) j hw hc2
      omega
    have hdisj2 : ∀ j, rowsHit mem i xs ys w h (row + 1) j →
        ¬colsHit xs (ys + row) w 0 (mem (i + row)) j := by
      intro j hr hc
      exact hdisj j hc hr
    have hlater : ∀ j, j / 64 ≠ ys + row →
        (drawCols xs (ys + row) w 0 (mem (i + row)) d vf).1.block_arr j = d.block_arr j := by
      intro j hj
      refine (cd j).2 ?_
      intro hc
      exact hj (colsHit_band xs (ys + row) w (mem (i + row)) j hw hc).2.2
    have hcolltr : rowsColl mem i xs ys w h (row + 1)
        (drawCols xs (ys + row) w 0 (mem (i + row)) d vf).1.block_arr ↔
        rowsColl mem i xs ys w h (row + 1) d.block_arr := by
      constructor <;> rintro ⟨r2, hr2, hc⟩ <;> refine ⟨r2, hr2, ?_⟩
      · rw [← colsColl_congr xs (ys + (row + 1) + r2) w (mem (i + (row + 1) + r2)) _
          d.block_arr hw (fun j hj => hlater j (by omega))]
        exact hc
      · rw [colsColl_congr xs (ys + (row + 1) + r2) w (mem (i + (row + 1) + r2)) _
          d.block_arr hw (fun j hj => hlater j (by omega))]
        exact hc
    have hsplitc : rowsColl mem i xs ys w (h + 1) row d.block_arr ↔
        colsColl xs (ys + row) w 0 (mem (i + row)) d.block_arr ∨
          rowsColl mem i xs ys w h (row + 1) d.block_arr := by
      constructor
      · rintro ⟨r, hr, hc⟩
        match r with
        | 0 =>
          left
          rw [show ys + row + 0 = ys + row from by omega,
            show i + row + 0 = i + row from by omega] at hc
          exact hc
        | Nat.succ r2 =>
          right
          refine ⟨r2, by omega, ?_⟩
          rw [show ys + (row + 1) + r2 = ys + row + (r2 + 1) from by omega,
            show i + (row + 1) + r2 = i + row + (r2 + 1) from by omega]
          exact hc
      · rintro (hc | ⟨r2, hr2, hc⟩)
        · refine ⟨0, by omega, ?_⟩
          rw [show ys + row + 0 = ys + row from by omega,
            show i + row + 0 = i + row from by omega]
          exact hc
        · refine ⟨r2 + 1, by omega, ?_⟩
          rw [show ys + row + (r2 + 1) = ys + (row + 1) + r2 from by omega,
            show i + row + (r2 + 1) = i + (row + 1) + r2 from by omega]
          exact hc
    refine ⟨d2, vf2, by rw [hrun]; exact hrec, ?_, ?_, ?_⟩
    · intro j
      constructor
      · intro hhit
        rcases (hsplit j).mp hhit with hc | hrest
        · rw [(ihd j).2 (hdisj j hc), (cd j).1 hc]
        · rw [(ihd j).1 hrest, hlater j ?later]
          case later =>
            have b2 := colsHit_band _ _ w _ j hw hrest.choose_spec.2
            omega
      · intro hmiss
        have h1 : ¬rowsHit mem i xs ys w h (row + 1) j :=
          fun hr => hmiss ((hsplit j).mpr (Or.inr hr))
        have h2 : ¬colsHit xs (ys + row) w 0 (mem (i + row)) j :=
          fun hc => hmiss ((hsplit j).mpr (Or.inl hc))
        rw [(ihd j).2 h1, (cd j).2 h2]
    · intro hcoll
      rcases hsplitc.mp hcoll with hc | hrest
      · by_cases hco : rowsColl mem i xs ys w h (row + 1)
            (drawCols xs (ys + row) w 0 (mem (i + row)) d vf).1.block_arr
        · exact ihc1 hco
        · rw [ihc2 hco]
          exact cc1 hc
      · exact ihc1 (hcolltr.mpr hrest)
    · intro hmiss
      have h1 : ¬rowsColl mem i xs ys w h (row + 1)
          (drawCols xs (ys + row) w 0 (mem (i + row)) d vf).1.block_arr :=
        fun hco => hmiss (hsplitc.mpr (Or.inr (hcolltr.mp hco)))
      have h2 : ¬colsColl xs (ys + row) w 0 (mem (i + row)) d.block_arr :=
        fun hc => hmiss (hsplitc.mpr (Or.inl hc))
      rw [ihc2 h1]
      exact cc2 h2

/-- The pixels toggled by a whole Dxyn draw: the clip width is
min 8 (64 - xs) and the clip height min n (32 - ys). -/
def drawHit (mem : Nat → Nat) (i xs ys n : Nat) (j : Nat) : Prop :=
  rowsHit mem i xs ys (min 8 (64 - xs)) (min n (32 - ys)) 0 j

/-- A Dxyn draw reports a collision iff some toggled pixel is on in the
incoming display g. -/
def drawColl (mem : Nat → Nat) (i xs ys n : Nat) (g : Nat → Nat) : Prop :=
  rowsColl mem i xs ys (min 8 (64 - xs)) (min n (32 - ys)) 0 g

/-- Helper: full characterization of an executed Dxyn opcode in terms of the
pre-state: memory, I and all registers except VF are untouched; a pixel is
toggled exactly when drawHit holds of it; VF ends 1 exactly when some drawn
pixel was on. -/
theorem exec_draw_spec (s : Cpu) (x y n now rand : Nat)
    (hx : x < 16) (hy : y < 16) (hn : n < 16)
    (hm : ∀ a, s.memory a < 256) (hI : s.i + n ≤ 4096) :
    ∃ s', exec_instruction s (0xD000 + 256 * x + 16 * y + n) now rand = some s' ∧
      s'.memory = s.memory ∧ s'.i = s.i ∧
      (∀ k, k ≠ 0xF → s'.v k = s.v k) ∧
      (∀ j, (drawHit s.memory s.i (s.v x % 64) (s.v y % 32) n j →
          s'.display.block_arr j = s.display.block_arr j ^^^ 1) ∧
        (¬drawHit s.memory s.i (s.v x % 64) (s.v y % 32) n j →
          s'.display.block_arr j = s.display.block_arr j)) ∧
      (drawColl s.memory s.i (s.v x % 64) (s.v y % 32) n s.display.block_arr →
        s'.v 0xF = 1) ∧
      (¬drawColl s.memory s.i (s.v x % 64) (s.v y % 32) n s.display.block_arr →
        s'.v 0xF = 0) := by
  have ht : (0xD000 + 256 * x + 16 * y + n) / 4096 = 13 := by omega
  have hxd : (0xD000 + 256 * x + 16 * y + n) / 256 % 16 = x := by omega
  have hyd : (0xD000 + 256 * x + 16 * y + n) / 16 % 16 = y := by omega
  have hnd : (0xD000 + 256 * x + 16 * y + n) % 16 = n := by omega
  obtain ⟨d2, vf2, hrun, hd, hc1, hc2⟩ :=
    drawRows_spec s.memory s.i (s.v x % 64) (s.v y % 32) (min 8 (64 - s.v x % 64)) hm
      (min_le_right _ _) (min n (32 - s.v y % 32)) 0 s.display 0 (by omega)
  refine ⟨{ s with pc := (s.pc + 2) % 65536, display := d2, v := upd s.v 0xF vf2 },
    ?_, rfl, rfl, ?_, ?_, ?_, ?_⟩
  · simp only [exec_instruction, exec_dispatch, exec_opD, ht, hxd, hyd, hnd]
    norm_num
    rw [hrun]
  · intro k hk
    exact upd_ne _ _ _ _ hk
  · intro j
    exact hd j
  · intro h
    show upd s.v 0xF vf2 0xF = 1
    rw [upd_same]
    exact hc1 h
  · intro h
    show upd s.v 0xF vf2 0xF = 0
    rw [upd_same]
    exact hc2 h

/-- C3: a Dxyn draw starts at (Vx mod 64, Vy mod 32); pixels change only
inside the clipped rectangle (columns from Vx mod 64 up to at most 63, rows
from Vy mod 32 up to min (Vy mod 32 + n) 32), so rows and columns past the
far edge are truncated and never wrap; VF is reset before the blit and ends
1 exactly when some drawn pixel toggled from on to off. -/
theorem c3_draw_clipping (s : Cpu) (x y n now rand : Nat)
    (hx : x < 16) (hy : y < 16) (hn : n < 16)
    (hm : ∀ a, s.memory a < 256) (hI : s.i + n ≤ 4096) :
    ∃ s', exec_instruction s (0xD000 + 256 * x + 16 * y + n) now rand = some s' ∧
      (∀ j, (drawHit s.memory s.i (s.v x % 64) (s.v y % 32) n j →
          s'.display.block_arr j = s.display.block_arr j ^^^ 1) ∧
        (¬drawHit s.memory s.i (s.v x % 64) (s.v y % 32) n j →
          s'.display.block_arr j = s.display.block_arr j)) ∧
      (∀ j, s'.display.block_arr j ≠ s.display.block_arr j →
        s.v x % 64 ≤ j % 64 ∧ j % 64 < 64 ∧
        s.v y % 32 ≤ j / 64 ∧ j / 64 < min (s.v y % 32 + n) 32) ∧
      (drawColl s.memory s.i (s.v x % 64) (s.v y % 32) n s.display.block_arr →
        s'.v 0xF = 1) ∧
      (¬drawColl s.memory s.i (s.v x % 64) (s.v y % 32) n s.display.block_arr →
        s'.v 0xF = 0) := by
  obtain ⟨s', hrun, hmem, hi, hv, hd, hc1, hc2⟩ :=
    exec_draw_spec s x y n now rand hx hy hn hm hI
  refine ⟨s', hrun, hd, ?_, hc1, hc2⟩
  intro j hne
  have hhit : rowsHit s.memory s.i (s.v x % 64) (s.v y % 32)
      (min 8 (64 - s.v x % 64)) (min n (32 - s.v y % 32)) 0 j := by
    by_contra hmiss
    exact hne ((hd j).2 hmiss)
  obtain ⟨r, hr, hc⟩ := hhit
  have hb := colsHit_band _ _ _ _ j (min_le_right _ _) hc
  omega

/-- Witness for c3_draw_clipping: opcode D011 on a fresh machine. -/
theorem c3_draw_clipping_witness :
    ∃ s', exec_instruction new_cpu (0xD000 + 256 * 0 + 16 * 1 + 1) 0 0 = some s' ∧
      (∀ j, (drawHit new_cpu.memory new_cpu.i (new_cpu.v 0 % 64) (new_cpu.v 1 % 32) 1 j →
          s'.display.block_arr j = new_cpu.display.block_arr j ^^^ 1) ∧
        (¬drawHit new_cpu.memory new_cpu.i (new_cpu.v 0 % 64) (new_cpu.v 1 % 32) 1 j →
          s'.display.block_arr j = new_cpu.display.block_arr j)) ∧
      (∀ j, s'.display.block_arr j ≠ new_cpu.display.block_arr j →
        new_cpu.v 0 % 64 ≤ j % 64 ∧ j % 64 < 64 ∧
        new_cpu.v 1 % 32 ≤ j / 64 ∧ j / 64 < min (new_cpu.v 1 % 32 + 1) 32) ∧
      (drawColl new_cpu.memory new_cpu.i (new_cpu.v 0 % 64) (new_cpu.v 1 % 32) 1
          new_cpu.display.block_arr → s'.v 0xF = 1) ∧
      (¬drawColl new_cpu.memory new_cpu.i (new_cpu.v 0 % 64) (new_cpu.v 1 % 32) 1
          new_cpu.display.block_arr → s'.v 0xF = 0) :=
  c3_draw_clipping new_cpu 0 1 1 0 0 (by decide) (by decide) (by decide)
    (fun a => by norm_num [new_cpu]) (by norm_num [new_cpu])

/-- C8: drawing the same sprite twice in a row (x and y distinct from 0xF so
the operand registers are untouched in between) restores every pixel of the
display, and the second draw reports a collision whenever the first draw
turned some pixel on. -/
theorem c8_double_draw (s : Cpu) (x y n now rand : Nat)
    (hx : x < 16) (hy : y < 16) (hn : n < 16) (hxF : x ≠ 0xF) (hyF : y ≠ 0xF)
    (hm : ∀ a, s.memory a < 256) (hI : s.i + n ≤ 4096) :
    ∃ s1 s2, exec_instruction s (0xD000 + 256 * x + 16 * y + n) now rand = some s1 ∧
      exec_instruction s1 (0xD000 + 256 * x + 16 * y + n) now rand = some s2 ∧
      (∀ j, s2.display.block_arr j = s.display.block_arr j) ∧
      ((∃ j, s1.display.block_arr j = 1 ∧ s.display.block_arr j = 0) → s2.v 0xF = 1) := by
  obtain ⟨s1, hrun1, hmem1, hi1, hv1, hd1, hc11, hc12⟩ :=
    exec_draw_spec s x y n now rand hx hy hn hm hI
  have hm2 : ∀ a, s1.memory a < 256 := by
    rw [hmem1]
    exact hm
  have hI2 : s1.i + n ≤ 4096 := by
    rw [hi1]
    exact hI
  obtain ⟨s2, hrun2, hmem2, hi2, hv2, hd2, hc21, hc22⟩ :=
    exec_draw_spec s1 x y n now rand hx hy hn hm2 hI2
  have hvx : s1.v x = s.v x := hv1 x hxF
  have hvy : s1.v y = s.v y := hv1 y hyF
  rw [hmem1, hi1, hvx, hvy] at hd2 hc21 hc22
  refine ⟨s1, s2, hrun1, hrun2, ?_, ?_⟩
  · intro j
    by_cases hj : drawHit s.memory s.i (s.v x % 64) (s.v y % 32) n j
    · rw [(hd2 j).1 hj, (hd1 j).1 hj, Nat.xor_assoc]
      simp
    · rw [(hd2 j).2 hj, (hd1 j).2 hj]
  · rintro ⟨j, hon, hoff⟩
    have hj : drawHit s.memory s.i (s.v x % 64) (s.v y % 32) n j := by
      by_contra hmiss
      rw [(hd1 j).2 hmiss] at hon
      omega
    apply hc21
    obtain ⟨r, hr, c, hcw, hbit, hjidx⟩ := hj
    exact ⟨r, hr, c, hcw, hbit, by rw [← hjidx]; exact hon⟩

/-- Witness for c8_double_draw: opcode D011 twice on a fresh machine. -/
theorem c8_double_draw_witness :
    ∃ s1 s2, exec_instruction new_cpu (0xD000 + 256 * 0 + 16 * 1 + 1) 0 0 = some s1 ∧
      exec_instruction s1 (0xD000 + 256 * 0 + 16 * 1 + 1) 0 0 = some s2 ∧
      (∀ j, s2.display.block_arr j = new_cpu.display.block_arr j) ∧
      ((∃ j, s1.display.block_arr j = 1 ∧ new_cpu.display.block_arr j = 0) →
        s2.v 0xF = 1) :=
  c8_double_draw new_cpu 0 1 1 0 0 (by decide) (by decide) (by decide)
    (by decide) (by decide) (fun a => by norm_num [new_cpu]) (by norm_num [new_cpu])

theorem getNextKeyAux_discard (va : Nat) (ptog esc : Bool)
    (pre rest : List (RawKey × Nat))
    (hpre : ∀ p ∈ pre, (∃ c, p.1 = RawKey.char c) ∧ p.2 < va) :
    getNextKeyAux va ptog esc (pre ++ rest) = getNextKeyAux va ptog esc rest := by
  induction pre with
  | nil => rfl
  | cons p pre ih =>
    obtain ⟨⟨c, hc⟩, hts⟩ := hpre p (List.mem_cons_self _ _)
    obtain ⟨k, ts⟩ := p
    simp only at hc hts
    subst hc
    simp only [List.cons_append, getNextKeyAux, if_pos hts]
    exact ih (fun q hq => hpre q (List.mem_cons_of_mem _ hq))

theorem getNextKeyAux_resolve (va ts : Nat) (ptog esc : Bool) (ch : Char)
    (val : Nat) (rest : List (RawKey × Nat))
    (hts : ¬ts < va) (hmap : key_map ch = some val) :
    getNextKeyAux va ptog esc ((RawKey.char ch, ts) :: rest) =
      (some val, ptog, esc, rest) := by
  simp only [getNextKeyAux, if_neg hts, hmap]

theorem getNextKeyAux_esc (va ts : Nat) (ptog esc : Bool)
    (rest : List (RawKey × Nat)) :
    getNextKeyAux va ptog esc ((RawKey.esc, ts) :: rest) =
      (none, ptog, true, rest) := rfl

theorem getNextKeyAux_toggle (va ts : Nat) (ptog esc : Bool)
    (rest : List (RawKey × Nat)) (hts : ¬ts < va) :
    getNextKeyAux va ptog esc ((RawKey.char ' ', ts) :: rest) =
      (none, !ptog, esc, rest) := by
  simp only [getNextKeyAux, if_neg hts,
    show key_map ' ' = none from rfl]
  simp

/-- C6: with a wait-for-key request pending for register xi created at time
va and no control flag set, and a queue made of a prefix of character events
older than va followed by a decisive event: a mapped character key stamped
at or after va resolves the wait (its value is stored in Vx, the request is
cleared, the machine runs again); a quit event or a pause-toggle key stamped
at or after va instead short-circuits without storing, leaving the request
pending and raising the corresponding flag; the stale prefix is discarded
without resolving in every case. -/
theorem c6_wait_resolution (s : Cpu) (xi va : Nat)
    (pre rest : List (RawKey × Nat))
    (hparams : s.next_key_params = some ⟨xi, va⟩)
    (hpre : ∀ p ∈ pre, (∃ c, p.1 = RawKey.char c) ∧ p.2 < va)
    (hesc : s.keyboard.esc_pressed = false)
    (htog : s.keyboard.pause_toggle_on = false) :
    (∀ ch val ts, key_map ch = some val → va ≤ ts →
      s.keyboard.queue = pre ++ (RawKey.char ch, ts) :: rest →
      ∃ s', process_next_key s = some s' ∧
        s'.v = upd s.v xi val ∧ s'.paused = false ∧ s'.next_key_params = none) ∧
    (∀ ts, s.keyboard.queue = pre ++ (RawKey.esc, ts) :: rest →
      ∃ s', process_next_key s = some s' ∧ s'.v = s.v ∧
        s'.next_key_params = some ⟨xi, va⟩ ∧ s'.keyboard.esc_pressed = true) ∧
    (∀ ts, va ≤ ts → s.keyboard.queue = pre ++ (RawKey.char ' ', ts) :: rest →
      ∃ s', process_next_key s = some s' ∧ s'.v = s.v ∧
        s'.next_key_params = some ⟨xi, va⟩ ∧
        s'.keyboard.pause_toggle_on = true) := by
  refine ⟨?_, ?_, ?_⟩
  · intro ch val ts hmap hts hqueue
    have hrun : s.keyboard.get_next_key va =
        (some val, ⟨rest, s.keyboard.pressed_keys, false, false⟩) := by
      unfold Keyboard.get_next_key
      rw [hqueue, htog, hesc, getNextKeyAux_discard va false false pre _ hpre,
        getNextKeyAux_resolve va ts false false ch val rest (by omega) hmap]
    have hpk : process_next_key s = some { s with keyboard := ⟨rest, s.keyboard.pressed_keys, false, false⟩, v := upd s.v xi val, paused := false, next_key_params := none } := by
      simp only [process_next_key, hparams, hrun]
      norm_num
    exact ⟨_, hpk, rfl, rfl, rfl⟩
  · intro ts hqueue
    have hrun : s.keyboard.get_next_key va =
        (none, ⟨rest, s.keyboard.pressed_keys, true, false⟩) := by
      unfold Keyboard.get_next_key
      rw [hqueue, htog, hesc, getNextKeyAux_discard va false false pre _ hpre,
        getNextKeyAux_esc va ts false false rest]
    have hpk : process_next_key s = some { s with keyboard := ⟨rest, s.keyboard.pressed_keys, true, false⟩ } := by
      simp only [process_next_key, hparams, hrun]
    exact ⟨_, hpk, rfl, hparams, rfl⟩
  · intro ts hts hqueue
    have hrun : s.keyboard.get_next_key va =
        (none, ⟨rest, s.keyboard.pressed_keys, false, true⟩) := by
      unfold Keyboard.get_next_key
      rw [hqueue, htog, hesc, getNextKeyAux_discard va false false pre _ hpre,
        getNextKeyAux_toggle va ts false false rest (by omega)]
      rfl
    have hpk : process_next_key s = some { s with keyboard := ⟨rest, s.keyboard.pressed_keys, false, true⟩ } := by
      simp only [process_next_key, hparams, hrun]
    exact ⟨_, hpk, rfl, hparams, rfl⟩

/-- A machine blocked on Fx0A with destination V3, request created at time
5, with a stale q press (time 1) and a valid a press (time 7) queued. -/
def wait_state : Cpu :=
  { new_cpu with
    paused := true
    next_key_params := some ⟨3, 5⟩
    keyboard := ⟨[(RawKey.char 'q', 1), (RawKey.char 'a', 7)],
      fun _ => none, false, false⟩ }

/-- Witness for c6_wait_resolution: the a press (mapped to 7) resolves the
wait with V3 = 7, clears the request and unpauses the machine. -/
theorem c6_wait_resolution_witness :
    ∃ s', process_next_key wait_state = some s' ∧
      s'.v = upd wait_state.v 3 7 ∧ s'.paused = false ∧
      s'.next_key_params = none :=
  (c6_wait_resolution wait_state 3 5 [(RawKey.char 'q', 1)] [] rfl
    (by
      rintro p hp
      rw [List.mem_singleton] at hp
      subst hp
      exact ⟨⟨'q', rfl⟩, by norm_num⟩)
    rfl rfl).1 'a' 7 7 rfl (by norm_num) rfl

end Chip8
